import Mathlib

/-!
Verification of the address-usage scanner (`iter_used_addresses`) and the
bundle resolver (`get_bundles_from_transaction_hashes`) from
`iota/commands/extended/utils.py`, against their natural-language
specification.

The ledger query facade (adapter commands), the address generator and the
tryte codec are external collaborators of the file under analysis; they are
modelled as environments of abstract response functions.  Transaction hashes,
bundle hashes and error conditions are opaque identifiers, modelled as `Nat`.
-/

namespace IotaUtils

/-- Opaque transaction hash (value type, comparable and hashable). -/
abbrev THash := Nat

/-- Opaque error condition raised by a ledger facade operation. -/
abbrev Err := Nat

/-! ## Address usage scanner -/

/-- Ledger facade as seen by the scanner.  Addresses are identified by their
derivation index: the address sequence producer (external collaborator,
modelled from the spec: `AddressGenerator(seed, security_level)
.create_iterator(start)` yields the addresses of indices
`start, start+1, …` in order) is folded into the indexing.
`findTransactions i` is the `hashes` field of the `findTransactions`
response for the one-element address list `[addr i]`; `wereSpentFrom i` is
the `states` field of the `wereAddressesSpentFrom` response for `[addr i]`.
`Except.error e` models the facade call raising a failure `e`. -/
structure ScanEnv where
  findTransactions : Nat → Except Err (List THash)
  wereSpentFrom : Nat → Except Err (List Bool)

/-- One ledger query issued by the scanner, recorded with the index of the
address it was issued for. -/
inductive SCall where
  | findTransactions (i : Nat)
  | wereSpentFrom (i : Nat)
  deriving DecidableEq, Repr

/-- The address index a scanner query was issued for. -/
def SCall.idx : SCall → Nat
  | .findTransactions i => i
  | .wereSpentFrom i => i

/-- How a (finitely observed) scan run ended. -/
inductive ScanOutcome where
  /-- The observer stopped pulling results (the generator itself had not
  finished): models lazy consumption with finite fuel. -/
  | outOfFuel
  /-- The scanner hit `break`: an address with no transactions that was
  never spent from. -/
  | stopped
  /-- A facade call raised failure `e`, which propagates to the caller. -/
  | failed (e : Err)
  /-- The scanner evaluated `wasf_response['states'][0]` on an empty
  `states` list (an out-of-bounds access). -/
  | indexError
  /-- The invocation was rejected before any query was issued
  (negative start index). -/
  | invalidArg
  deriving DecidableEq, Repr

/-- Everything observable about a scan run: the `(index, hashes)` pairs
yielded (the address of a yield is determined by its index), the facade
calls issued in order, and how the run ended. -/
structure ScanRun where
  results : List (Nat × List THash)
  calls : List SCall
  outcome : ScanOutcome
  deriving DecidableEq, Repr

/-- Result of one iteration of the scanner's loop body. -/
inductive ScanStepRes where
  /-- The body yielded `(addr i, hs)` and the loop advances to `i + 1`. -/
  | yielded (hs : List THash) (calls : List SCall)
  /-- The body terminated the generator (`break`, a propagated facade
  failure, or an out-of-bounds access). -/
  | halted (calls : List SCall) (o : ScanOutcome)

/-- Loop body of `iter_used_addresses` for the address of index `i`,
translated clause by clause:
`ft_response = ft_command(addresses=[addy])`; if `ft_response['hashes']` is
non-empty, yield `(addy, hashes)`; otherwise call
`wasf_command(addresses=[addy])` and test `wasf_response['states'][0]`
(yield `(addy, [])` when true, `break` when false, out-of-bounds when
`states` is empty).  A facade failure halts the generator with that
failure. -/
def scanStep (env : ScanEnv) (i : Nat) : ScanStepRes :=
  match env.findTransactions i with
  | .error e => .halted [.findTransactions i] (.failed e)
  | .ok hashes =>
    if hashes.isEmpty then
      match env.wereSpentFrom i with
      | .error e => .halted [.findTransactions i, .wereSpentFrom i] (.failed e)
      | .ok states =>
        match states[0]? with
        | none => .halted [.findTransactions i, .wereSpentFrom i] .indexError
        | some true => .yielded [] [.findTransactions i, .wereSpentFrom i]
        | some false => .halted [.findTransactions i, .wereSpentFrom i] .stopped
    else
      .yielded hashes [.findTransactions i]

/-- The facade calls issued by one iteration of the loop body. -/
def ScanStepRes.calls : ScanStepRes → List SCall
  | .yielded _ cs => cs
  | .halted cs _ => cs

/-- The scanner `iter_used_addresses(adapter, seed, start)` observed for at
most `fuel` pulls: it walks the address sequence from index `start`,
running `scanStep` at each index until the step halts or the observer
stops pulling. -/
def iter_used_addresses (env : ScanEnv) : Nat → Nat → ScanRun
  | _, 0 => ⟨[], [], .outOfFuel⟩
  | start, fuel + 1 =>
    match scanStep env start with
    | .halted cs o => ⟨[], cs, o⟩
    | .yielded hs cs =>
      let r := iter_used_addresses env (start + 1) fuel
      ⟨(start, hs) :: r.results, cs ++ r.calls, r.outcome⟩

/-- The scanner invoked with a possibly-negative start index.  Modelled
from the spec: the address sequence producer
(`AddressGenerator(...).create_iterator(start)`, an external collaborator
whose code is not part of the analysed file) rejects a negative start
index as an invalid argument before any ledger query is issued (§7). -/
def iter_used_addresses_int (env : ScanEnv) (start : Int) (fuel : Nat) :
    ScanRun :=
  if start < 0 then ⟨[], [], .invalidArg⟩
  else iter_used_addresses env start.toNat fuel

/-! ## Bundle resolver -/

/-- A decoded transaction, as consumed by
`get_bundles_from_transaction_hashes`: its hash, the hash of its owning
bundle, the tail flag, the timestamp of the transaction, and the
confirmation flag (absent until backfilled from inclusion states). -/
structure Transaction where
  hash : THash
  bundle_hash : THash
  is_tail : Bool
  timestamp : Nat
  is_confirmed : Option Bool
  deriving DecidableEq, Repr

/-- A bundle.  Modelled from the spec (§3, the `Bundle` class is external
collaborator code): an ordered sequence of transactions, a designated tail
transaction, and an optional confirmation flag. -/
structure Bundle where
  transactions : List Transaction
  tail_transaction : Transaction
  is_confirmed : Option Bool
  deriving DecidableEq, Repr

/-- Ledger facade as seen by the resolver.  `getTrytes` is the `trytes`
response already composed with the (external) `Transaction
.from_tryte_string` decode step; `findTransactionObjects` is the
`transactions` field of the `FindTransactionObjectsCommand` response for a
bundle-hash query; `getLatestInclusion` is the `states` response dict of
`GetLatestInclusionCommand`, as its `.get` lookup function;
`getBundles` is the `bundles` field of the `GetBundlesCommand` response.
`Except.error e` models the facade call raising a failure `e`. -/
structure ResolveEnv where
  getTrytes : List THash → Except Err (List Transaction)
  findTransactionObjects : List THash → Except Err (List Transaction)
  getLatestInclusion : List THash → Except Err (THash → Option Bool)
  getBundles : List THash → Except Err (List Bundle)

/-- One ledger query issued by the resolver, with its argument. -/
inductive RCall where
  | getTrytes (hashes : List THash)
  | findTransactionObjects (bundles : List THash)
  | getLatestInclusion (hashes : List THash)
  | getBundles (hashes : List THash)
  deriving DecidableEq, Repr

/-- The `for txn in all_transactions` classification loop: tail
transactions are kept by hash, non-tail ones by owning bundle hash.
Python `set`s are modelled as `Finset`s (unordered, deduplicating). -/
def classifyTransactions (l : List Transaction) :
    Finset THash × Finset THash :=
  l.foldl
    (fun p txn =>
      if txn.is_tail then (insert txn.hash p.1, p.2)
      else (p.1, insert txn.bundle_hash p.2))
    (∅, ∅)

/-- The merge loop over the `FindTransactionObjectsCommand` response: each
tail transaction whose hash is not yet tracked is appended to
`all_transactions` and its hash added to the tail set. -/
def discoverTails (response : List Transaction)
    (all_transactions : List Transaction) (tails : Finset THash) :
    List Transaction × Finset THash :=
  response.foldl
    (fun p txn =>
      if txn.is_tail then
        if txn.hash ∈ p.2 then p
        else (p.1 ++ [txn], insert txn.hash p.2)
      else p)
    (all_transactions, tails)

/-- The sort key relation of the final `sorted(..., key=lambda bundle_:
bundle_.tail_transaction.timestamp)`. -/
def tsLE (a b : Bundle) : Bool :=
  decide (a.tail_transaction.timestamp ≤ b.tail_transaction.timestamp)

/-- Final phase of the resolver: fetch the bundles for the tail
transactions (in that order), copy each tail transaction's confirmation
flag onto its bundle when inclusion states were requested, and return the
bundles sorted (stably) by tail-transaction timestamp. -/
def attachBundles (env : ResolveEnv) (inclusion_states : Bool)
    (tail_transactions : List Transaction) (calls : List RCall) :
    Except Err (List Bundle) × List RCall :=
  let query := tail_transactions.map (·.hash)
  match env.getBundles query with
  | .error e => (.error e, calls ++ [.getBundles query])
  | .ok txn_bundles =>
    let txn_bundles :=
      if inclusion_states then
        List.zipWith (fun b txn => { b with is_confirmed := txn.is_confirmed })
          txn_bundles tail_transactions
      else txn_bundles
    (.ok (txn_bundles.mergeSort tsLE), calls ++ [.getBundles query])

/-- Middle phase of the resolver: restrict `all_transactions` to the
transactions whose hash is in the final tail set, then (only if inclusion
states were requested) query the latest inclusion states of all tracked
tail hashes in one batch and backfill each tail transaction's confirmation
flag from the response. -/
def attachInclusionStates (env : ResolveEnv) (inclusion_states : Bool)
    (all_transactions : List Transaction) (tails : Finset THash)
    (calls : List RCall) : Except Err (List Bundle) × List RCall :=
  let tail_transactions :=
    all_transactions.filter (fun txn => decide (txn.hash ∈ tails))
  if inclusion_states then
    let query := tails.sort (· ≤ ·)
    match env.getLatestInclusion query with
    | .error e => (.error e, calls ++ [.getLatestInclusion query])
    | .ok states =>
      attachBundles env inclusion_states
        (tail_transactions.map fun txn =>
          { txn with is_confirmed := states txn.hash })
        (calls ++ [.getLatestInclusion query])
  else
    attachBundles env inclusion_states tail_transactions calls

/-- `get_bundles_from_transaction_hashes(adapter, transaction_hashes,
inclusion_states)`: given transaction hashes, resolve the owning bundles,
sorted by tail-transaction timestamp.  Returns the result (or the first
facade failure, which propagates) together with the facade calls issued,
in order. -/
def get_bundles_from_transaction_hashes (env : ResolveEnv)
    (transaction_hashes : List THash) (inclusion_states : Bool) :
    Except Err (List Bundle) × List RCall :=
  if transaction_hashes.isEmpty then (.ok [], [])
  else
    match env.getTrytes transaction_hashes with
    | .error e => (.error e, [.getTrytes transaction_hashes])
    | .ok all_transactions =>
      let p := classifyTransactions all_transactions
      if p.2.Nonempty then
        let bundle_query := p.2.sort (· ≤ ·)
        match env.findTransactionObjects bundle_query with
        | .error e =>
          (.error e, [.getTrytes transaction_hashes,
            .findTransactionObjects bundle_query])
        | .ok response =>
          let q := discoverTails response all_transactions p.1
          attachInclusionStates env inclusion_states q.1 q.2
            [.getTrytes transaction_hashes,
              .findTransactionObjects bundle_query]
      else
        attachInclusionStates env inclusion_states all_transactions p.1
          [.getTrytes transaction_hashes]

/-- A well-behaved (never-failing) ledger facade, modelled from the spec's
interface contracts (§6): a decoded transaction per hash, the transaction
set of each bundle, a confirmation lookup, and a bundle per tail hash. -/
structure PureFacade where
  txnOf : THash → Transaction
  bundleTransactions : THash → List Transaction
  inclusion : THash → Option Bool
  bundleOf : THash → Bundle

/-- The facade environment induced by a `PureFacade`: batch responses are
the per-item responses in query order (`getTrytes` and `getBundles` are
contracted to answer parallel to their query lists). -/
def PureFacade.toEnv (p : PureFacade) : ResolveEnv where
  getTrytes hs := .ok (hs.map p.txnOf)
  findTransactionObjects ids := .ok ((ids.map p.bundleTransactions).flatten)
  getLatestInclusion _ := .ok p.inclusion
  getBundles hs := .ok (hs.map p.bundleOf)

/-- The bundle list returned by the resolver under a never-failing
facade. -/
def resolvedBundles (p : PureFacade) (transaction_hashes : List THash)
    (inclusion_states : Bool) : List Bundle :=
  match (get_bundles_from_transaction_hashes p.toEnv transaction_hashes
      inclusion_states).1 with
  | .ok out => out
  | .error _ => []

/-! ## Derived views used in statements and proofs -/

/-- The tail hashes the classification loop collects from a transaction
list. -/
def tailHashesOf (l : List Transaction) : Finset THash :=
  ((l.filter (fun t => t.is_tail)).map (fun t => t.hash)).toFinset

/-- The owning bundle hashes the classification loop collects from the
non-tail transactions of a transaction list. -/
def nonTailBundlesOf (l : List Transaction) : Finset THash :=
  ((l.filter (fun t => !t.is_tail)).map (fun t => t.bundle_hash)).toFinset

/-- The transaction list and tail-hash set the resolver holds after the
classification and tail-discovery phases, under a never-failing facade. -/
def mergedPair (p : PureFacade) (transaction_hashes : List THash) :
    List Transaction × Finset THash :=
  let all := transaction_hashes.map p.txnOf
  let nonTails := nonTailBundlesOf all
  if nonTails.Nonempty then
    discoverTails (((nonTails.sort (· ≤ ·)).map p.bundleTransactions).flatten)
      all (tailHashesOf all)
  else (all, tailHashesOf all)

/-- The bundle the resolver produces for one resolved tail transaction
under a never-failing facade: the facade's bundle for its hash, with the
confirmation flag backfilled when inclusion states were requested. -/
def bundleizer (p : PureFacade) (inclusion_states : Bool)
    (t : Transaction) : Bundle :=
  if inclusion_states then
    { p.bundleOf t.hash with is_confirmed := p.inclusion t.hash }
  else p.bundleOf t.hash

/-- Sort key of the final ordering: the tail transaction's timestamp. -/
def bundleTs (b : Bundle) : Nat := b.tail_transaction.timestamp

/-! ## Concrete facades used for counterexamples and witnesses -/

/-- A scanner facade: address 0 has one transaction, every later address
is fresh (no transactions, never spent). -/
def scanEnvW : ScanEnv where
  findTransactions i := .ok (if i = 0 then [7] else [])
  wereSpentFrom _ := .ok [false]

/-- A scanner facade whose `findTransactions` always fails with error 3. -/
def failFtEnv : ScanEnv where
  findTransactions _ := .error 3
  wereSpentFrom _ := .ok [true]

/-- A scanner facade with no transactions anywhere and a failing
`wereAddressesSpentFrom` (error 4). -/
def failWasfEnv : ScanEnv where
  findTransactions _ := .ok []
  wereSpentFrom _ := .error 4

/-- A resolver facade whose every operation fails. -/
def failREnv : ResolveEnv where
  getTrytes _ := .error 5
  findTransactionObjects _ := .error 6
  getLatestInclusion _ := .error 7
  getBundles _ := .error 8

/-- A resolver facade that decodes every hash to a non-tail transaction
and then fails on `findTransactionObjects` (error 6). -/
def failREnv2 : ResolveEnv where
  getTrytes hs := .ok (hs.map fun h => ⟨h, h, false, 0, none⟩)
  findTransactionObjects _ := .error 6
  getLatestInclusion _ := .error 7
  getBundles _ := .error 8

/-- A resolver facade that decodes every hash to a tail transaction and
then fails on `getLatestInclusion` (error 7). -/
def failREnv3 : ResolveEnv where
  getTrytes hs := .ok (hs.map fun h => ⟨h, h, true, 0, none⟩)
  findTransactionObjects _ := .ok []
  getLatestInclusion _ := .error 7
  getBundles _ := .ok []

/-- A resolver facade that decodes every hash to a tail transaction and
then fails on `getBundles` (error 8). -/
def failREnv4 : ResolveEnv where
  getTrytes hs := .ok (hs.map fun h => ⟨h, h, true, 0, none⟩)
  findTransactionObjects _ := .ok []
  getLatestInclusion _ := .ok fun _ => none
  getBundles _ := .error 8

/-- A never-failing facade in which every hash names its own one-element
bundle and all tail timestamps are equal (5). -/
def tiedFacade : PureFacade where
  txnOf h := ⟨h, h, true, 5, none⟩
  bundleTransactions _ := []
  inclusion _ := none
  bundleOf h := ⟨[⟨h, h, true, 5, none⟩], ⟨h, h, true, 5, none⟩, none⟩

/-- A never-failing facade in which every hash names its own one-element
bundle and hash `h` has tail timestamp `h` (all distinct). -/
def distinctTsFacade : PureFacade where
  txnOf h := ⟨h, h, true, h, none⟩
  bundleTransactions _ := []
  inclusion h := if h = 1 then some true else none
  bundleOf h := ⟨[⟨h, h, true, h, none⟩], ⟨h, h, true, h, none⟩, none⟩

/-- A never-failing facade holding one bundle (hash 9) with tail
transaction of hash 1 (timestamp 3) and a non-tail transaction of hash 2
(timestamp 4). -/
def overlapFacade : PureFacade where
  txnOf h := if h = 1 then ⟨1, 9, true, 3, none⟩ else ⟨h, 9, false, 4, none⟩
  bundleTransactions h :=
    if h = 9 then [⟨1, 9, true, 3, none⟩, ⟨2, 9, false, 4, none⟩] else []
  inclusion _ := some true
  bundleOf _ := ⟨[⟨1, 9, true, 3, none⟩, ⟨2, 9, false, 4, none⟩],
    ⟨1, 9, true, 3, none⟩, none⟩

/-- Claim C1: the sequence of indices yielded by a scan started at `start`
is exactly `start, start+1, …`: strictly increasing, contiguous, nothing
below `start`, nothing skipped, nothing repeated. -/
theorem scanner_indices_contiguous (env : ScanEnv) (start fuel : Nat) :
    (iter_used_addresses env start fuel).results.map Prod.fst =
      List.range' start (iter_used_addresses env start fuel).results.length := by
  induction fuel generalizing start with
  | zero => simp [iter_used_addresses]
  | succ fuel ih =>
    simp only [iter_used_addresses]
    cases scanStep env start with
    | halted cs o => simp
    | yielded hs cs =>
      simp only [List.map_cons, List.length_cons, List.range'_succ]
      exact congrArg (start :: ·) (ih (start + 1))

theorem scanStep_eq_yield_nonempty {env : ScanEnv} {i : Nat} {hs : List THash}
    (h : env.findTransactions i = .ok hs) (hne : hs ≠ []) :
    scanStep env i = .yielded hs [.findTransactions i] := by
  simp [scanStep, h, List.isEmpty_iff, hne]

theorem scanStep_eq_yield_spent {env : ScanEnv} {i : Nat} {states : List Bool}
    (h : env.findTransactions i = .ok [])
    (h2 : env.wereSpentFrom i = .ok states) (h3 : states[0]? = some true) :
    scanStep env i = .yielded [] [.findTransactions i, .wereSpentFrom i] := by
  simp [scanStep, h, h2, h3]

theorem scanStep_eq_stop {env : ScanEnv} {i : Nat} {states : List Bool}
    (h : env.findTransactions i = .ok [])
    (h2 : env.wereSpentFrom i = .ok states) (h3 : states[0]? = some false) :
    scanStep env i =
      .halted [.findTransactions i, .wereSpentFrom i] .stopped := by
  simp [scanStep, h, h2, h3]

theorem scanStep_eq_fail_ft {env : ScanEnv} {i : Nat} {e : Err}
    (h : env.findTransactions i = .error e) :
    scanStep env i = .halted [.findTransactions i] (.failed e) := by
  simp [scanStep, h]

theorem scanStep_eq_fail_wasf {env : ScanEnv} {i : Nat} {e : Err}
    (h : env.findTransactions i = .ok [])
    (h2 : env.wereSpentFrom i = .error e) :
    scanStep env i =
      .halted [.findTransactions i, .wereSpentFrom i] (.failed e) := by
  simp [scanStep, h, h2]

theorem scanStep_eq_indexError {env : ScanEnv} {i : Nat} {states : List Bool}
    (h : env.findTransactions i = .ok [])
    (h2 : env.wereSpentFrom i = .ok states) (h3 : states[0]? = none) :
    scanStep env i =
      .halted [.findTransactions i, .wereSpentFrom i] .indexError := by
  simp [scanStep, h, h2, h3]

/-- Exhaustive case analysis of one loop iteration of the scanner. -/
theorem scanStep_cases (env : ScanEnv) (i : Nat) :
    (∃ e, env.findTransactions i = .error e ∧
      scanStep env i = .halted [.findTransactions i] (.failed e)) ∨
    (∃ hs, env.findTransactions i = .ok hs ∧ hs ≠ [] ∧
      scanStep env i = .yielded hs [.findTransactions i]) ∨
    (env.findTransactions i = .ok [] ∧
      ((∃ e, env.wereSpentFrom i = .error e ∧
        scanStep env i =
          .halted [.findTransactions i, .wereSpentFrom i] (.failed e)) ∨
      (∃ states, env.wereSpentFrom i = .ok states ∧
        ((states[0]? = none ∧ scanStep env i =
            .halted [.findTransactions i, .wereSpentFrom i] .indexError) ∨
         (states[0]? = some true ∧ scanStep env i =
            .yielded [] [.findTransactions i, .wereSpentFrom i]) ∨
         (states[0]? = some false ∧ scanStep env i =
            .halted [.findTransactions i, .wereSpentFrom i] .stopped))))) := by
  cases h1 : env.findTransactions i with
  | error e => exact .inl ⟨e, rfl, scanStep_eq_fail_ft h1⟩
  | ok hs =>
    by_cases h2 : hs = []
    · subst h2
      refine .inr (.inr ⟨rfl, ?_⟩)
      cases h3 : env.wereSpentFrom i with
      | error e => exact .inl ⟨e, rfl, scanStep_eq_fail_wasf h1 h3⟩
      | ok states =>
        refine .inr ⟨states, rfl, ?_⟩
        cases h4 : states[0]? with
        | none => exact .inl ⟨rfl, scanStep_eq_indexError h1 h3 h4⟩
        | some b =>
          cases b
          · exact .inr (.inr ⟨rfl, scanStep_eq_stop h1 h3 h4⟩)
          · exact .inr (.inl ⟨rfl, scanStep_eq_yield_spent h1 h3 h4⟩)
    · exact .inr (.inl ⟨hs, rfl, h2, scanStep_eq_yield_nonempty h1 h2⟩)

theorem scanStep_calls_idx (env : ScanEnv) (i : Nat) :
    ∀ c ∈ (scanStep env i).calls, c.idx = i := by
  intro c hc
  rcases scanStep_cases env i with ⟨e, h1, hstep⟩ | ⟨hs, h1, hne, hstep⟩ |
    ⟨h1, ⟨e, h3, hstep⟩ | ⟨states, h3, ⟨h4, hstep⟩ | ⟨h4, hstep⟩ | ⟨h4, hstep⟩⟩⟩ <;>
    rw [hstep] at hc <;>
    simp only [ScanStepRes.calls, List.mem_cons, List.not_mem_nil,
      or_false] at hc <;>
    first
    | (subst hc; rfl)
    | (rcases hc with rfl | rfl <;> rfl)

theorem scanStep_ft_mem (env : ScanEnv) (i : Nat) :
    SCall.findTransactions i ∈ (scanStep env i).calls := by
  rcases scanStep_cases env i with ⟨e, h1, hstep⟩ | ⟨hs, h1, hne, hstep⟩ |
    ⟨h1, ⟨e, h3, hstep⟩ | ⟨states, h3, ⟨h4, hstep⟩ | ⟨h4, hstep⟩ | ⟨h4, hstep⟩⟩⟩ <;>
    rw [hstep] <;> simp [ScanStepRes.calls]

theorem scanStep_wasf_mem (env : ScanEnv) (i : Nat) :
    SCall.wereSpentFrom i ∈ (scanStep env i).calls ↔
      env.findTransactions i = .ok [] := by
  rcases scanStep_cases env i with ⟨e, h1, hstep⟩ | ⟨hs, h1, hne, hstep⟩ |
    ⟨h1, ⟨e, h3, hstep⟩ | ⟨states, h3, ⟨h4, hstep⟩ | ⟨h4, hstep⟩ | ⟨h4, hstep⟩⟩⟩ <;>
    rw [hstep] <;> simp_all [ScanStepRes.calls]

theorem scan_calls_ge (env : ScanEnv) (start fuel : Nat) :
    ∀ c ∈ (iter_used_addresses env start fuel).calls, start ≤ c.idx := by
  induction fuel generalizing start with
  | zero => simp [iter_used_addresses]
  | succ fuel ih =>
    intro c hc
    cases hstep : scanStep env start with
    | halted cs o =>
      simp only [iter_used_addresses, hstep] at hc
      have := scanStep_calls_idx env start c (by rw [hstep]; exact hc)
      omega
    | yielded hs cs =>
      simp only [iter_used_addresses, hstep] at hc
      rcases List.mem_append.mp hc with h | h
      · have := scanStep_calls_idx env start c (by rw [hstep]; exact h)
        omega
      · have := ih (start + 1) c h
        omega

/-- Claim C3: among the addresses the scanner reaches (those it issued a
`findTransactions` query for), `wereAddressesSpentFrom` is queried exactly
for the ones whose `findTransactions` response is empty; an address with a
non-empty response is yielded together with those hashes and its spent
status is never checked. -/
theorem scanner_spent_query_discipline (env : ScanEnv) (start fuel j : Nat) :
    (SCall.wereSpentFrom j ∈ (iter_used_addresses env start fuel).calls ↔
      SCall.findTransactions j ∈ (iter_used_addresses env start fuel).calls ∧
        env.findTransactions j = .ok []) ∧
    (∀ hs, env.findTransactions j = .ok hs → hs ≠ [] →
      SCall.findTransactions j ∈ (iter_used_addresses env start fuel).calls →
      (j, hs) ∈ (iter_used_addresses env start fuel).results) := by
  induction fuel generalizing start with
  | zero => simp [iter_used_addresses]
  | succ fuel ih =>
    cases hstep : scanStep env start with
    | halted cs o =>
      have hidx : ∀ c ∈ cs, c.idx = start := by
        intro c hc
        exact scanStep_calls_idx env start c (by rw [hstep]; exact hc)
      simp only [iter_used_addresses, hstep]
      constructor
      · constructor
        · intro hmem
          have hj : j = start := hidx _ hmem
          subst hj
          have hok : env.findTransactions j = .ok [] :=
            (scanStep_wasf_mem env j).mp (by rw [hstep]; exact hmem)
          refine ⟨?_, hok⟩
          have := scanStep_ft_mem env j
          rwa [hstep] at this
        · rintro ⟨hftmem, hok⟩
          have hj : j = start := hidx _ hftmem
          subst hj
          have := (scanStep_wasf_mem env j).mpr hok
          rwa [hstep] at this
      · intro hs hok hne hftmem
        have hj : j = start := hidx _ hftmem
        subst hj
        have := scanStep_eq_yield_nonempty hok hne
        rw [hstep] at this
        cases this
    | yielded hs cs =>
      have hidx : ∀ c ∈ cs, c.idx = start := by
        intro c hc
        exact scanStep_calls_idx env start c (by rw [hstep]; exact hc)
      have hge := scan_calls_ge env (start + 1) fuel
      simp only [iter_used_addresses, hstep]
      by_cases hj : j = start
      · subst hj
        constructor
        · have hwasf_not_rec :
              SCall.wereSpentFrom j ∉
                (iter_used_addresses env (j + 1) fuel).calls := by
            intro h
            have := hge _ h
            simp [SCall.idx] at this
          have hft_mem : SCall.findTransactions j ∈ cs := by
            have := scanStep_ft_mem env j
            rwa [hstep] at this
          constructor
          · intro hmem
            rcases List.mem_append.mp hmem with h | h
            · have hok : env.findTransactions j = .ok [] :=
                (scanStep_wasf_mem env j).mp (by rw [hstep]; exact h)
              exact ⟨List.mem_append.mpr (.inl hft_mem), hok⟩
            · exact absurd h hwasf_not_rec
          · rintro ⟨-, hok⟩
            have := (scanStep_wasf_mem env j).mpr hok
            rw [hstep] at this
            exact List.mem_append.mpr (.inl this)
        · intro hs' hok hne hftmem
          have := scanStep_eq_yield_nonempty hok hne
          rw [hstep] at this
          injection this with h1 h2
          subst h1
          exact List.mem_cons_self _ _
      · have hcs_not : ∀ k, SCall.idx k = j → k ∉ cs := by
          intro k hk hmem
          exact hj (hk.symm.trans (hidx _ hmem))
        constructor
        · constructor
          · intro hmem
            rcases List.mem_append.mp hmem with h | h
            · exact absurd h (hcs_not _ rfl)
            · obtain ⟨hftmem, hok⟩ := (ih (start + 1)).1.mp h
              exact ⟨List.mem_append.mpr (.inr hftmem), hok⟩
          · rintro ⟨hftmem, hok⟩
            rcases List.mem_append.mp hftmem with h | h
            · exact absurd h (hcs_not _ rfl)
            · exact List.mem_append.mpr (.inr ((ih (start + 1)).1.mpr ⟨h, hok⟩))
        · intro hs' hok hne hftmem
          rcases List.mem_append.mp hftmem with h | h
          · exact absurd h (hcs_not _ rfl)
          · exact List.mem_cons_of_mem _ ((ih (start + 1)).2 hs' hok hne h)

/-- If every index in `[start, i)` is used (non-empty `findTransactions`
response, or an empty one with a true spent flag), the scan from `start`
yields one result per such index and then behaves exactly like the scan
from `i` with the remaining fuel. -/
theorem scan_through (env : ScanEnv) (F : Nat → List THash) (W : Nat → Bool)
    (start i : Nat)
    (hft : ∀ j, start ≤ j → j < i → env.findTransactions j = .ok (F j))
    (hw : ∀ j, start ≤ j → j < i → env.wereSpentFrom j = .ok [W j])
    (hused : ∀ j, start ≤ j → j < i → F j ≠ [] ∨ W j = true)
    (hle : start ≤ i) (fuel : Nat) (hfuel : i - start ≤ fuel) :
    ∃ pres pcalls,
      iter_used_addresses env start fuel =
        ⟨pres ++ (iter_used_addresses env i (fuel - (i - start))).results,
         pcalls ++ (iter_used_addresses env i (fuel - (i - start))).calls,
         (iter_used_addresses env i (fuel - (i - start))).outcome⟩ ∧
      pres.map Prod.fst = List.range' start (i - start) ∧
      ∀ c ∈ pcalls, c.idx < i := by
  induction fuel generalizing start with
  | zero =>
    have : i = start := by omega
    subst this
    exact ⟨[], [], by simp, by simp, by simp⟩
  | succ fuel ih =>
    rcases Nat.eq_or_lt_of_le hle with heq | hlt
    · subst heq
      exact ⟨[], [], by simp, by simp, by simp⟩
    · -- the address at `start` is used: the step yields and the loop recurses
      have hfts := hft start le_rfl hlt
      have step :
          ∃ hs cs, scanStep env start = .yielded hs cs ∧
            ∀ c ∈ cs, c.idx = start := by
        by_cases hF : F start = []
        · have hWs : W start = true := by
            rcases hused start le_rfl hlt with h | h
            · exact absurd hF h
            · exact h
          refine ⟨[], _, scanStep_eq_yield_spent (hF ▸ hfts)
            (hw start le_rfl hlt) (by simp [hWs]), ?_⟩
          intro c hc
          simp only [List.mem_cons, List.not_mem_nil, or_false] at hc
          rcases hc with rfl | rfl <;> simp [SCall.idx]
        · refine ⟨F start, _, scanStep_eq_yield_nonempty hfts hF, ?_⟩
          intro c hc
          simp only [List.mem_singleton] at hc
          subst hc
          simp [SCall.idx]
      obtain ⟨hs, cs, hstep, hcs⟩ := step
      obtain ⟨pres, pcalls, hrun, hmap, hbound⟩ :=
        ih (start + 1)
          (fun j h1 h2 => hft j (by omega) h2)
          (fun j h1 h2 => hw j (by omega) h2)
          (fun j h1 h2 => hused j (by omega) h2)
          (by omega) (by omega)
      have hidx : fuel - (i - (start + 1)) = fuel + 1 - (i - start) := by omega
      refine ⟨(start, hs) :: pres, cs ++ pcalls, ?_, ?_, ?_⟩
      · simp only [iter_used_addresses, hstep]
        rw [hrun]
        simp [hidx]
      · have : i - start = (i - (start + 1)) + 1 := by omega
        rw [this, List.range'_succ]
        simp [hmap]
      · intro c hc
        rcases List.mem_append.mp hc with h | h
        · rw [hcs c h]; omega
        · exact hbound c h

/-- Claim C2: if every index in `[start, i)` is used and index `i` has an
empty `findTransactions` response and a false spent flag, the scan from
`start` (given enough pulls) yields exactly one result per index of
`[start, i)`, nothing at or after `i`, terminates via `break`, and never
queries an address of index above `i`. -/
theorem scanner_stops_at_first_unused (env : ScanEnv) (F : Nat → List THash)
    (W : Nat → Bool) (start i fuel : Nat)
    (hft : ∀ j, start ≤ j → j < i → env.findTransactions j = .ok (F j))
    (hw : ∀ j, start ≤ j → j < i → env.wereSpentFrom j = .ok [W j])
    (hused : ∀ j, start ≤ j → j < i → F j ≠ [] ∨ W j = true)
    (hle : start ≤ i)
    (hfti : env.findTransactions i = .ok [])
    (hwi : env.wereSpentFrom i = .ok [false])
    (hfuel : i - start < fuel) :
    (iter_used_addresses env start fuel).results.map Prod.fst =
        List.range' start (i - start) ∧
      (iter_used_addresses env start fuel).outcome = .stopped ∧
      ∀ c ∈ (iter_used_addresses env start fuel).calls, c.idx ≤ i := by
  obtain ⟨pres, pcalls, hrun, hmap, hbound⟩ :=
    scan_through env F W start i hft hw hused hle fuel (by omega)
  obtain ⟨fuel', hfuel'⟩ : ∃ fuel', fuel - (i - start) = fuel' + 1 :=
    ⟨fuel - (i - start) - 1, by omega⟩
  have hstepi : iter_used_addresses env i (fuel - (i - start)) =
      ⟨[], [.findTransactions i, .wereSpentFrom i], .stopped⟩ := by
    rw [hfuel']
    simp only [iter_used_addresses, scanStep_eq_stop hfti hwi (by simp)]
  rw [hrun, hstepi]
  refine ⟨by simpa using hmap, rfl, ?_⟩
  intro c hc
  rcases List.mem_append.mp hc with h | h
  · exact Nat.le_of_lt (hbound c h)
  · simp only [List.mem_cons, List.not_mem_nil, or_false] at h
    rcases h with rfl | rfl <;> simp [SCall.idx]

/-- Claim C2, witness: scanning `scanEnvW` from 0 with two pulls yields
exactly index 0, stops, and queries no index above 1. -/
theorem scanner_stops_at_first_unused_witness :
    (iter_used_addresses scanEnvW 0 2).results.map Prod.fst =
        List.range' 0 (1 - 0) ∧
      (iter_used_addresses scanEnvW 0 2).outcome = .stopped ∧
      ∀ c ∈ (iter_used_addresses scanEnvW 0 2).calls, c.idx ≤ 1 :=
  scanner_stops_at_first_unused scanEnvW
    (fun j => if j = 0 then [7] else []) (fun _ => false) 0 1 2
    (fun j _ h2 => by
      have : j = 0 := by omega
      subst this; rfl)
    (fun j _ h2 => by
      have : j = 0 := by omega
      subst this; rfl)
    (fun j _ h2 => by
      have : j = 0 := by omega
      subst this
      exact .inl (by decide))
    (by omega) rfl rfl (by omega)

/-- Claim C10: the scanner reads only element 0 of the
`wereAddressesSpentFrom` states list; whenever the facade's `states` lists
are non-empty (as the parallel-response contract for a one-address query
guarantees), that access is in bounds and the scan never ends in an index
error. -/
theorem scanner_spent_access_in_bounds (env : ScanEnv)
    (hpar : ∀ i l, env.wereSpentFrom i = .ok l → l ≠ [])
    (start fuel : Nat) :
    (iter_used_addresses env start fuel).outcome ≠ .indexError := by
  induction fuel generalizing start with
  | zero => simp [iter_used_addresses]
  | succ fuel ih =>
    rcases scanStep_cases env start with ⟨e, h1, hstep⟩ | ⟨hs, h1, hne, hstep⟩ |
      ⟨h1, ⟨e, h3, hstep⟩ | ⟨states, h3, ⟨h4, hstep⟩ | ⟨h4, hstep⟩ | ⟨h4, hstep⟩⟩⟩
    · simp [iter_used_addresses, hstep]
    · simp only [iter_used_addresses, hstep]
      exact ih (start + 1)
    · simp [iter_used_addresses, hstep]
    · cases states with
      | nil => exact absurd rfl (hpar _ _ h3)
      | cons b bs => simp at h4
    · simp only [iter_used_addresses, hstep]
      exact ih (start + 1)
    · simp [iter_used_addresses, hstep]

/-- Claim C10, witness: under `scanEnvW` (whose `states` responses are all
`[false]`) a scan of two pulls does not end in an index error. -/
theorem scanner_spent_access_in_bounds_witness :
    (iter_used_addresses scanEnvW 0 2).outcome ≠ .indexError :=
  scanner_spent_access_in_bounds scanEnvW
    (fun i l h => by
      simp only [scanEnvW] at h
      injection h with h'
      subst h'
      decide)
    0 2

/-- Claim C9: a scan invoked with a negative start index is rejected as an
invalid argument with no result yielded and no ledger query issued. -/
theorem scanner_rejects_negative_start (env : ScanEnv) (start : Int)
    (fuel : Nat) (h : start < 0) :
    iter_used_addresses_int env start fuel = ⟨[], [], .invalidArg⟩ := by
  simp [iter_used_addresses_int, h]

/-- Claim C9, witness: a scan of `scanEnvW` from index -1 is rejected with
no queries. -/
theorem scanner_rejects_negative_start_witness :
    iter_used_addresses_int scanEnvW (-1) 5 = ⟨[], [], .invalidArg⟩ :=
  scanner_rejects_negative_start scanEnvW (-1) 5 (by decide)

/-- Claim C7: for either value of `inclusion_states`, the resolver applied
to an empty hash collection returns the empty bundle list and issues no
facade call at all. -/
theorem resolver_empty_input_no_queries (env : ResolveEnv)
    (inclusion_states : Bool) :
    get_bundles_from_transaction_hashes env [] inclusion_states =
      (.ok [], []) := rfl

theorem scanner_ft_failure (env : ScanEnv) (F : Nat → List THash)
    (W : Nat → Bool) (start i fuel : Nat) (e : Err)
    (hft : ∀ j, start ≤ j → j < i → env.findTransactions j = .ok (F j))
    (hw : ∀ j, start ≤ j → j < i → env.wereSpentFrom j = .ok [W j])
    (hused : ∀ j, start ≤ j → j < i → F j ≠ [] ∨ W j = true)
    (hle : start ≤ i)
    (hfail : env.findTransactions i = .error e)
    (hfuel : i - start < fuel) :
    (iter_used_addresses env start fuel).outcome = .failed e ∧
      (iter_used_addresses env start fuel).results.map Prod.fst =
        List.range' start (i - start) ∧
      ∀ c ∈ (iter_used_addresses env start fuel).calls, c.idx ≤ i := by
  obtain ⟨pres, pcalls, hrun, hmap, hbound⟩ :=
    scan_through env F W start i hft hw hused hle fuel (by omega)
  obtain ⟨fuel', hfuel'⟩ : ∃ fuel', fuel - (i - start) = fuel' + 1 :=
    ⟨fuel - (i - start) - 1, by omega⟩
  have hstepi : iter_used_addresses env i (fuel - (i - start)) =
      ⟨[], [.findTransactions i], .failed e⟩ := by
    rw [hfuel']
    simp only [iter_used_addresses, scanStep_eq_fail_ft hfail]
  rw [hrun, hstepi]
  refine ⟨rfl, by simpa using hmap, ?_⟩
  intro c hc
  rcases List.mem_append.mp hc with h | h
  · exact Nat.le_of_lt (hbound c h)
  · simp only [List.mem_singleton] at h
    subst h
    simp [SCall.idx]

theorem scanner_wasf_failure (env : ScanEnv) (F : Nat → List THash)
    (W : Nat → Bool) (start i fuel : Nat) (e : Err)
    (hft : ∀ j, start ≤ j → j < i → env.findTransactions j = .ok (F j))
    (hw : ∀ j, start ≤ j → j < i → env.wereSpentFrom j = .ok [W j])
    (hused : ∀ j, start ≤ j → j < i → F j ≠ [] ∨ W j = true)
    (hle : start ≤ i)
    (hfti : env.findTransactions i = .ok [])
    (hfail : env.wereSpentFrom i = .error e)
    (hfuel : i - start < fuel) :
    (iter_used_addresses env start fuel).outcome = .failed e ∧
      (iter_used_addresses env start fuel).results.map Prod.fst =
        List.range' start (i - start) ∧
      ∀ c ∈ (iter_used_addresses env start fuel).calls, c.idx ≤ i := by
  obtain ⟨pres, pcalls, hrun, hmap, hbound⟩ :=
    scan_through env F W start i hft hw hused hle fuel (by omega)
  obtain ⟨fuel', hfuel'⟩ : ∃ fuel', fuel - (i - start) = fuel' + 1 :=
    ⟨fuel - (i - start) - 1, by omega⟩
  have hstepi : iter_used_addresses env i (fuel - (i - start)) =
      ⟨[], [.findTransactions i, .wereSpentFrom i], .failed e⟩ := by
    rw [hfuel']
    simp only [iter_used_addresses, scanStep_eq_fail_wasf hfti hfail]
  rw [hrun, hstepi]
  refine ⟨rfl, by simpa using hmap, ?_⟩
  intro c hc
  rcases List.mem_append.mp hc with h | h
  · exact Nat.le_of_lt (hbound c h)
  · simp only [List.mem_cons, List.not_mem_nil, or_false] at h
    rcases h with rfl | rfl <;> simp [SCall.idx]

theorem resolver_getTrytes_failure (env : ResolveEnv) (hs : List THash)
    (b : Bool) (e : Err) (hne : hs ≠ [])
    (hfail : env.getTrytes hs = .error e) :
    (get_bundles_from_transaction_hashes env hs b).1 = .error e := by
  have hemp : hs.isEmpty = false := by simpa [List.isEmpty_iff] using hne
  simp [get_bundles_from_transaction_hashes, hemp, hfail]

theorem resolver_findTxObjs_failure (env : ResolveEnv) (hs : List THash)
    (b : Bool) (e : Err) (all : List Transaction) (hne : hs ≠ [])
    (hok : env.getTrytes hs = .ok all)
    (hnonempty : (classifyTransactions all).2.Nonempty)
    (hfail : env.findTransactionObjects
      ((classifyTransactions all).2.sort (· ≤ ·)) = .error e) :
    (get_bundles_from_transaction_hashes env hs b).1 = .error e := by
  have hemp : hs.isEmpty = false := by simpa [List.isEmpty_iff] using hne
  simp [get_bundles_from_transaction_hashes, hemp, hok, hnonempty, hfail]

theorem resolver_inclusion_failure (env : ResolveEnv) (hs : List THash)
    (e : Err) (all : List Transaction) (hne : hs ≠ [])
    (hok : env.getTrytes hs = .ok all)
    (hnotail : ¬(classifyTransactions all).2.Nonempty)
    (hfail : env.getLatestInclusion
      ((classifyTransactions all).1.sort (· ≤ ·)) = .error e) :
    (get_bundles_from_transaction_hashes env hs true).1 = .error e := by
  have hemp : hs.isEmpty = false := by simpa [List.isEmpty_iff] using hne
  simp [get_bundles_from_transaction_hashes, attachInclusionStates, hemp,
    hok, hnotail, hfail]

theorem resolver_getBundles_failure (env : ResolveEnv) (hs : List THash)
    (e : Err) (all : List Transaction) (hne : hs ≠ [])
    (hok : env.getTrytes hs = .ok all)
    (hnotail : ¬(classifyTransactions all).2.Nonempty)
    (hfail : env.getBundles
      ((all.filter (fun txn =>
          decide (txn.hash ∈ (classifyTransactions all).1))).map
        (fun txn => txn.hash)) = .error e) :
    (get_bundles_from_transaction_hashes env hs false).1 = .error e := by
  have hemp : hs.isEmpty = false := by simpa [List.isEmpty_iff] using hne
  simp [get_bundles_from_transaction_hashes, attachInclusionStates,
    attachBundles, hemp, hok, hnotail, hfail]

/-- Claim C8: every ledger facade failure propagates to the caller exactly
as raised and immediately: a scanner whose `findTransactions` or
`wereAddressesSpentFrom` call fails at index `i` (after a used prefix)
ends with that failure, keeps the results already yielded for
`[start, i)`, and queries nothing beyond `i`; a resolver whose
`getTrytes`, `findTransactionObjects`, `getLatestInclusion` or
`getBundles` call fails returns that failure and no bundle list. -/
theorem facade_failure_propagation :
    (∀ (env : ScanEnv) (F : Nat → List THash) (W : Nat → Bool)
        (start i fuel : Nat) (e : Err),
      (∀ j, start ≤ j → j < i → env.findTransactions j = .ok (F j)) →
      (∀ j, start ≤ j → j < i → env.wereSpentFrom j = .ok [W j]) →
      (∀ j, start ≤ j → j < i → F j ≠ [] ∨ W j = true) →
      start ≤ i → env.findTransactions i = .error e → i - start < fuel →
      (iter_used_addresses env start fuel).outcome = .failed e ∧
        (iter_used_addresses env start fuel).results.map Prod.fst =
          List.range' start (i - start) ∧
        ∀ c ∈ (iter_used_addresses env start fuel).calls, c.idx ≤ i) ∧
    (∀ (env : ScanEnv) (F : Nat → List THash) (W : Nat → Bool)
        (start i fuel : Nat) (e : Err),
      (∀ j, start ≤ j → j < i → env.findTransactions j = .ok (F j)) →
      (∀ j, start ≤ j → j < i → env.wereSpentFrom j = .ok [W j]) →
      (∀ j, start ≤ j → j < i → F j ≠ [] ∨ W j = true) →
      start ≤ i → env.findTransactions i = .ok [] →
      env.wereSpentFrom i = .error e → i - start < fuel →
      (iter_used_addresses env start fuel).outcome = .failed e ∧
        (iter_used_addresses env start fuel).results.map Prod.fst =
          List.range' start (i - start) ∧
        ∀ c ∈ (iter_used_addresses env start fuel).calls, c.idx ≤ i) ∧
    (∀ (env : ResolveEnv) (hs : List THash) (b : Bool) (e : Err),
      hs ≠ [] → env.getTrytes hs = .error e →
      (get_bundles_from_transaction_hashes env hs b).1 = .error e) ∧
    (∀ (env : ResolveEnv) (hs : List THash) (b : Bool) (e : Err)
        (all : List Transaction),
      hs ≠ [] → env.getTrytes hs = .ok all →
      (classifyTransactions all).2.Nonempty →
      env.findTransactionObjects
        ((classifyTransactions all).2.sort (· ≤ ·)) = .error e →
      (get_bundles_from_transaction_hashes env hs b).1 = .error e) ∧
    (∀ (env : ResolveEnv) (hs : List THash) (e : Err)
        (all : List Transaction),
      hs ≠ [] → env.getTrytes hs = .ok all →
      ¬(classifyTransactions all).2.Nonempty →
      env.getLatestInclusion
        ((classifyTransactions all).1.sort (· ≤ ·)) = .error e →
      (get_bundles_from_transaction_hashes env hs true).1 = .error e) ∧
    (∀ (env : ResolveEnv) (hs : List THash) (e : Err)
        (all : List Transaction),
      hs ≠ [] → env.getTrytes hs = .ok all →
      ¬(classifyTransactions all).2.Nonempty →
      env.getBundles
        ((all.filter (fun txn =>
            decide (txn.hash ∈ (classifyTransactions all).1))).map
          (fun txn => txn.hash)) = .error e →
      (get_bundles_from_transaction_hashes env hs false).1 = .error e) :=
  ⟨scanner_ft_failure, scanner_wasf_failure, resolver_getTrytes_failure,
    resolver_findTxObjs_failure, resolver_inclusion_failure,
    resolver_getBundles_failure⟩

/-- Claim C8, witness: concrete failing facades for each operation. -/
theorem facade_failure_propagation_witness :
    (iter_used_addresses failFtEnv 0 1).outcome = .failed 3 ∧
      (iter_used_addresses failWasfEnv 0 1).outcome = .failed 4 ∧
      (get_bundles_from_transaction_hashes failREnv [1] false).1 =
        .error 5 ∧
      (get_bundles_from_transaction_hashes failREnv2 [1] false).1 =
        .error 6 ∧
      (get_bundles_from_transaction_hashes failREnv3 [1] true).1 =
        .error 7 ∧
      (get_bundles_from_transaction_hashes failREnv4 [1] false).1 =
        .error 8 :=
  ⟨(facade_failure_propagation.1 failFtEnv (fun _ => []) (fun _ => false)
      0 0 1 3 (fun j h1 h2 => absurd h2 (by omega))
      (fun j h1 h2 => absurd h2 (by omega))
      (fun j h1 h2 => absurd h2 (by omega)) (by omega) rfl (by omega)).1,
   (facade_failure_propagation.2.1 failWasfEnv (fun _ => [])
      (fun _ => false) 0 0 1 4 (fun j h1 h2 => absurd h2 (by omega))
      (fun j h1 h2 => absurd h2 (by omega))
      (fun j h1 h2 => absurd h2 (by omega)) (by omega) rfl rfl
      (by omega)).1,
   facade_failure_propagation.2.2.1 failREnv [1] false 5 (by decide) rfl,
   facade_failure_propagation.2.2.2.1 failREnv2 [1] false 6
     [⟨1, 1, false, 0, none⟩] (by decide) rfl (by decide) rfl,
   facade_failure_propagation.2.2.2.2.1 failREnv3 [1] 7
     [⟨1, 1, true, 0, none⟩] (by decide) rfl (by decide) rfl,
   facade_failure_propagation.2.2.2.2.2 failREnv4 [1] 8
     [⟨1, 1, true, 0, none⟩] (by decide) rfl (by decide) rfl⟩

theorem classify_foldl (l : List Transaction) (s n : Finset THash) :
    l.foldl
        (fun p txn =>
          if txn.is_tail then (insert txn.hash p.1, p.2)
          else (p.1, insert txn.bundle_hash p.2)) (s, n) =
      (s ∪ tailHashesOf l, n ∪ nonTailBundlesOf l) := by
  induction l generalizing s n with
  | nil => simp [tailHashesOf, nonTailBundlesOf]
  | cons t ts ih =>
    by_cases ht : t.is_tail = true
    · simp only [List.foldl_cons, ht, if_true]
      rw [ih]
      simp [tailHashesOf, nonTailBundlesOf, List.filter_cons, ht,
        Finset.insert_union, Finset.union_insert]
    · simp only [List.foldl_cons, ht, if_false]
      rw [ih]
      simp [tailHashesOf, nonTailBundlesOf, List.filter_cons, ht,
        Finset.insert_union, Finset.union_insert]

theorem classifyTransactions_eq (l : List Transaction) :
    classifyTransactions l = (tailHashesOf l, nonTailBundlesOf l) := by
  rw [classifyTransactions, classify_foldl]
  simp

theorem discoverTails_append (resp : List Transaction)
    (a : List Transaction) (s : Finset THash) :
    discoverTails resp a s =
      (a ++ (discoverTails resp [] s).1, (discoverTails resp [] s).2) := by
  induction resp generalizing a s with
  | nil => simp [discoverTails]
  | cons t ts ih =>
    by_cases ht : t.is_tail = true
    · by_cases hm : t.hash ∈ s
      · simp only [discoverTails, List.foldl_cons, ht, if_true, hm]
        exact ih a s
      · simp only [discoverTails, List.foldl_cons, ht, if_true, hm, if_false]
        show discoverTails ts (a ++ [t]) (insert t.hash s) =
          (a ++ (discoverTails ts ([] ++ [t]) (insert t.hash s)).1,
            (discoverTails ts ([] ++ [t]) (insert t.hash s)).2)
        rw [ih (a ++ [t]) (insert t.hash s),
          ih ([] ++ [t]) (insert t.hash s)]
        simp
    · simp only [discoverTails, List.foldl_cons, ht, if_false]
      exact ih a s

theorem discoverTails_skip (resp : List Transaction)
    (a : List Transaction) (s : Finset THash)
    (h : ∀ t ∈ resp, t.is_tail = true → t.hash ∈ s) :
    discoverTails resp a s = (a, s) := by
  induction resp generalizing a s with
  | nil => simp [discoverTails]
  | cons t ts ih =>
    by_cases ht : t.is_tail = true
    · have hm : t.hash ∈ s := h t (List.mem_cons_self t ts) ht
      simp only [discoverTails, List.foldl_cons, ht, if_true, hm]
      exact ih a s fun u hu => h u (List.mem_cons_of_mem t hu)
    · simp only [discoverTails, List.foldl_cons, ht, if_false]
      exact ih a s fun u hu => h u (List.mem_cons_of_mem t hu)

theorem zipWith_map_same {α β γ : Type} (f : β → α → γ) (g : α → β)
    (l : List α) :
    List.zipWith f (l.map g) l = l.map fun x => f (g x) x := by
  induction l with
  | nil => rfl
  | cons x xs ih => simp [ih]

theorem attachBundles_toEnv_false (p : PureFacade)
    (tt : List Transaction) (calls : List RCall) :
    (attachBundles p.toEnv false tt calls).1 =
      .ok (((tt.map fun t => t.hash).map p.bundleOf).mergeSort tsLE) := rfl

theorem attachBundles_toEnv_true (p : PureFacade)
    (tt : List Transaction) (calls : List RCall) :
    (attachBundles p.toEnv true tt calls).1 =
      .ok ((List.zipWith
          (fun bb t => { bb with is_confirmed := t.is_confirmed })
          ((tt.map fun t => t.hash).map p.bundleOf) tt).mergeSort tsLE) :=
  rfl

theorem attachInclusion_toEnv (p : PureFacade) (b : Bool)
    (all : List Transaction) (tails : Finset THash) (calls : List RCall) :
    (attachInclusionStates p.toEnv b all tails calls).1 =
      .ok (((all.filter fun t => decide (t.hash ∈ tails)).map
          (bundleizer p b)).mergeSort tsLE) := by
  cases b with
  | false =>
    rw [show attachInclusionStates p.toEnv false all tails calls =
        attachBundles p.toEnv false
          (all.filter fun t => decide (t.hash ∈ tails)) calls from rfl]
    rw [attachBundles_toEnv_false, List.map_map]
    rfl
  | true =>
    rw [show attachInclusionStates p.toEnv true all tails calls =
        attachBundles p.toEnv true
          ((all.filter fun t => decide (t.hash ∈ tails)).map fun txn =>
            { txn with is_confirmed := p.inclusion txn.hash })
          (calls ++ [.getLatestInclusion (tails.sort (· ≤ ·))]) from rfl]
    rw [attachBundles_toEnv_true, List.map_map, zipWith_map_same,
      List.map_map]
    rfl

theorem resolve_toEnv (p : PureFacade) (hs : List THash) (b : Bool)
    (hne : hs ≠ []) :
    (get_bundles_from_transaction_hashes p.toEnv hs b).1 =
      .ok ((((mergedPair p hs).1.filter fun t =>
            decide (t.hash ∈ (mergedPair p hs).2)).map
          (bundleizer p b)).mergeSort tsLE) := by
  have hemp : hs.isEmpty = false := by simpa [List.isEmpty_iff] using hne
  by_cases hn : (nonTailBundlesOf (hs.map p.txnOf)).Nonempty
  · have hmk : mergedPair p hs =
        discoverTails
          ((((nonTailBundlesOf (hs.map p.txnOf)).sort (· ≤ ·)).map
            p.bundleTransactions).flatten)
          (hs.map p.txnOf) (tailHashesOf (hs.map p.txnOf)) := by
      rw [mergedPair, if_pos hn]
    rw [hmk]
    simp only [get_bundles_from_transaction_hashes, hemp,
      Bool.false_eq_true, if_false, PureFacade.toEnv,
      classifyTransactions_eq]
    rw [if_pos hn]
    exact attachInclusion_toEnv p b _ _ _
  · have hmk : mergedPair p hs =
        (hs.map p.txnOf, tailHashesOf (hs.map p.txnOf)) := by
      rw [mergedPair, if_neg hn]
    rw [hmk]
    simp only [get_bundles_from_transaction_hashes, hemp,
      Bool.false_eq_true, if_false, PureFacade.toEnv,
      classifyTransactions_eq]
    rw [if_neg hn]
    exact attachInclusion_toEnv p b _ _ _

theorem resolvedBundles_eq (p : PureFacade) (hs : List THash) (b : Bool)
    (hne : hs ≠ []) :
    resolvedBundles p hs b =
      (((mergedPair p hs).1.filter fun t =>
          decide (t.hash ∈ (mergedPair p hs).2)).map
        (bundleizer p b)).mergeSort tsLE := by
  rw [resolvedBundles, resolve_toEnv p hs b hne]

theorem perm_toFinset {α : Type} [DecidableEq α] {l1 l2 : List α}
    (h : l1.Perm l2) : l1.toFinset = l2.toFinset :=
  Finset.ext fun a => by simp [List.mem_toFinset, h.mem_iff]

theorem tailHashesOf_perm {l1 l2 : List Transaction} (h : l1.Perm l2) :
    tailHashesOf l1 = tailHashesOf l2 :=
  perm_toFinset ((h.filter _).map _)

theorem nonTailBundlesOf_perm {l1 l2 : List Transaction} (h : l1.Perm l2) :
    nonTailBundlesOf l1 = nonTailBundlesOf l2 :=
  perm_toFinset ((h.filter _).map _)

theorem mergedPair_perm (p : PureFacade) {l1 l2 : List THash}
    (h : l1.Perm l2) :
    (mergedPair p l1).1.Perm (mergedPair p l2).1 ∧
      (mergedPair p l1).2 = (mergedPair p l2).2 := by
  have hall : (l1.map p.txnOf).Perm (l2.map p.txnOf) := h.map _
  have hT := tailHashesOf_perm hall
  have hN := nonTailBundlesOf_perm hall
  simp only [mergedPair]
  rw [hT, hN]
  by_cases hn : (nonTailBundlesOf (l2.map p.txnOf)).Nonempty
  · rw [if_pos hn, if_pos hn]
    rw [discoverTails_append _ (l1.map p.txnOf) _,
      discoverTails_append _ (l2.map p.txnOf) _]
    exact ⟨hall.append_right _, rfl⟩
  · rw [if_neg hn, if_neg hn]
    exact ⟨hall, rfl⟩

theorem sorted_key_nodup_eq {α : Type} (key : α → Nat) {l1 l2 : List α}
    (hp : l1.Perm l2)
    (hs1 : l1.Pairwise fun a b => key a ≤ key b)
    (hs2 : l2.Pairwise fun a b => key a ≤ key b)
    (hn : (l1.map key).Nodup) : l1 = l2 := by
  have hn2 : (l2.map key).Nodup := ((hp.map key).nodup_iff).mp hn
  have hne1 : l1.Pairwise fun a b => key a ≠ key b := List.pairwise_map.mp hn
  have hne2 : l2.Pairwise fun a b => key a ≠ key b := List.pairwise_map.mp hn2
  have hlt1 : l1.Pairwise fun a b => key a < key b :=
    (hs1.and hne1).imp fun hab => lt_of_le_of_ne hab.1 hab.2
  have hlt2 : l2.Pairwise fun a b => key a < key b :=
    (hs2.and hne2).imp fun hab => lt_of_le_of_ne hab.1 hab.2
  exact @List.eq_of_perm_of_sorted α (fun a b => key a < key b)
    ⟨fun a b ha hb => absurd hb (Nat.lt_asymm ha)⟩ l1 l2 hp hlt1 hlt2

theorem tsLE_trans (a b c : Bundle) (hab : tsLE a b = true)
    (hbc : tsLE b c = true) : tsLE a c = true := by
  simp only [tsLE, decide_eq_true_eq] at *
  omega

theorem tsLE_total (a b : Bundle) : (tsLE a b || tsLE b a) = true := by
  simp only [tsLE, Bool.or_eq_true, decide_eq_true_eq]
  omega

theorem pairwise_tsLE_le {l : List Bundle}
    (h : l.Pairwise fun a b => tsLE a b = true) :
    l.Pairwise fun a b => bundleTs a ≤ bundleTs b :=
  h.imp fun hab => by simpa [tsLE, bundleTs] using hab

/-- Claim C4 (amended): the resolver's output is always sorted ascending
by tail-transaction timestamp; and whenever the resolved bundles' tail
timestamps are pairwise distinct, the output is identical for any two
permutations of the input hash collection.  (With tied timestamps the
stable sort preserves input order, so full permutation invariance fails:
see the counterexample.) -/
theorem resolver_sorted_and_order_independent :
    (∀ (p : PureFacade) (hs : List THash) (b : Bool),
      (resolvedBundles p hs b).Pairwise fun x y =>
        bundleTs x ≤ bundleTs y) ∧
    (∀ (p : PureFacade) (l1 l2 : List THash) (b : Bool),
      l1.Perm l2 → ((resolvedBundles p l1 b).map bundleTs).Nodup →
      resolvedBundles p l1 b = resolvedBundles p l2 b) := by
  constructor
  · intro p hs b
    by_cases hne : hs = []
    · subst hne
      rw [show resolvedBundles p [] b = [] from rfl]
      exact List.Pairwise.nil
    · rw [resolvedBundles_eq p hs b hne]
      exact pairwise_tsLE_le (List.sorted_mergeSort tsLE_trans tsLE_total _)
  · intro p l1 l2 b hperm hnodup
    by_cases hne : l1 = []
    · subst hne
      rw [List.Perm.eq_nil hperm.symm]
    · have hne2 : l2 ≠ [] := by
        intro hc
        subst hc
        exact hne (List.Perm.eq_nil hperm)
      rw [resolvedBundles_eq p l1 b hne] at hnodup ⊢
      rw [resolvedBundles_eq p l2 b hne2]
      obtain ⟨hallperm, hTeq⟩ := mergedPair_perm p hperm
      have hpre :
          (((mergedPair p l1).1.filter fun t =>
              decide (t.hash ∈ (mergedPair p l1).2)).map
            (bundleizer p b)).Perm
          (((mergedPair p l2).1.filter fun t =>
              decide (t.hash ∈ (mergedPair p l2).2)).map
            (bundleizer p b)) := by
        rw [← hTeq]
        exact (hallperm.filter _).map _
      have hms := ((List.mergeSort_perm _ tsLE).trans hpre).trans
        (List.mergeSort_perm _ tsLE).symm
      exact sorted_key_nodup_eq bundleTs hms
        (pairwise_tsLE_le (List.sorted_mergeSort tsLE_trans tsLE_total _))
        (pairwise_tsLE_le (List.sorted_mergeSort tsLE_trans tsLE_total _))
        hnodup

/-- Claim C4, counterexample: under `tiedFacade` (two distinct bundles
with equal tail timestamps), permuting the input changes the returned
list, so the resolver is not permutation-invariant as claimed. -/
theorem resolver_permutation_dependence_cex :
    ([1, 2] : List THash).Perm [2, 1] ∧
      resolvedBundles tiedFacade [1, 2] false ≠
        resolvedBundles tiedFacade [2, 1] false := by
  refine ⟨List.Perm.swap 2 1 [], ?_⟩
  have e1 : resolvedBundles tiedFacade [1, 2] false =
      [tiedFacade.bundleOf 1, tiedFacade.bundleOf 2] := by
    rw [resolvedBundles_eq _ _ _ (by decide)]
    rw [show (((mergedPair tiedFacade [1, 2]).1.filter fun t =>
          decide (t.hash ∈ (mergedPair tiedFacade [1, 2]).2)).map
        (bundleizer tiedFacade false)) =
      [tiedFacade.bundleOf 1, tiedFacade.bundleOf 2] from by decide]
    exact List.mergeSort_of_sorted (by decide)
  have e2 : resolvedBundles tiedFacade [2, 1] false =
      [tiedFacade.bundleOf 2, tiedFacade.bundleOf 1] := by
    rw [resolvedBundles_eq _ _ _ (by decide)]
    rw [show (((mergedPair tiedFacade [2, 1]).1.filter fun t =>
          decide (t.hash ∈ (mergedPair tiedFacade [2, 1]).2)).map
        (bundleizer tiedFacade false)) =
      [tiedFacade.bundleOf 2, tiedFacade.bundleOf 1] from by decide]
    exact List.mergeSort_of_sorted (by decide)
  rw [e1, e2]
  decide

/-- Claim C4, witness: with pairwise distinct tail timestamps the two
input orders give the same bundle list. -/
theorem resolver_sorted_and_order_independent_witness :
    resolvedBundles distinctTsFacade [1, 2] false =
      resolvedBundles distinctTsFacade [2, 1] false := by
  have e1 : resolvedBundles distinctTsFacade [1, 2] false =
      [distinctTsFacade.bundleOf 1, distinctTsFacade.bundleOf 2] := by
    rw [resolvedBundles_eq _ _ _ (by decide)]
    rw [show (((mergedPair distinctTsFacade [1, 2]).1.filter fun t =>
          decide (t.hash ∈ (mergedPair distinctTsFacade [1, 2]).2)).map
        (bundleizer distinctTsFacade false)) =
      [distinctTsFacade.bundleOf 1, distinctTsFacade.bundleOf 2] from
        by decide]
    exact List.mergeSort_of_sorted (by decide)
  exact resolver_sorted_and_order_independent.2 distinctTsFacade [1, 2]
    [2, 1] false (List.Perm.swap 2 1 []) (by rw [e1]; decide)

/-- Claim C5 (amended): overlapping input hashes of the same bundle — its
tail hash given directly together with a non-tail hash of the same bundle
— produce that bundle exactly once, for either inclusion-states mode.
(A literally repeated input hash is not deduplicated: the input is
contracted to be a set; see the counterexample.)  The hypotheses are the
facade contracts: each decoded transaction carries the queried hash, and
the queried bundle's only tail transaction is the one given. -/
theorem resolver_overlap_single_bundle (p : PureFacade) (h1 h2 : THash)
    (b : Bool) (hne : h1 ≠ h2)
    (ht1 : (p.txnOf h1).is_tail = true)
    (hh1 : (p.txnOf h1).hash = h1)
    (ht2 : (p.txnOf h2).is_tail = false)
    (hh2 : (p.txnOf h2).hash = h2)
    (htails : ∀ t ∈ p.bundleTransactions ((p.txnOf h2).bundle_hash),
      t.is_tail = true → t.hash = h1) :
    (resolvedBundles p [h1, h2] b).length = 1 := by
  rw [resolvedBundles_eq p _ b (by simp)]
  rw [(List.mergeSort_perm _ tsLE).length_eq, List.length_map]
  have hT : tailHashesOf ([h1, h2].map p.txnOf) = {h1} := by
    simp [tailHashesOf, List.filter_cons, ht1, ht2, hh1]
  have hN : nonTailBundlesOf ([h1, h2].map p.txnOf) =
      {(p.txnOf h2).bundle_hash} := by
    simp [nonTailBundlesOf, List.filter_cons, ht1, ht2]
  have hmp : mergedPair p [h1, h2] =
      ([h1, h2].map p.txnOf, ({h1} : Finset THash)) := by
    simp only [mergedPair]
    rw [hT, hN]
    rw [if_pos (Finset.singleton_nonempty _)]
    rw [Finset.sort_singleton]
    rw [discoverTails_skip]
    intro t ht htt
    rw [Finset.mem_singleton]
    exact htails t (by simpa using ht) htt
  rw [hmp]
  simp [List.filter_cons, hh1, hh2, Ne.symm hne]

/-- Claim C5, counterexample: giving the same tail hash twice makes the
resolver return its bundle twice, not once. -/
theorem resolver_duplicate_input_cex :
    (resolvedBundles tiedFacade [1, 1] false).count
      (tiedFacade.bundleOf 1) = 2 := by
  have e : resolvedBundles tiedFacade [1, 1] false =
      [tiedFacade.bundleOf 1, tiedFacade.bundleOf 1] := by
    rw [resolvedBundles_eq _ _ _ (by decide)]
    rw [show (((mergedPair tiedFacade [1, 1]).1.filter fun t =>
          decide (t.hash ∈ (mergedPair tiedFacade [1, 1]).2)).map
        (bundleizer tiedFacade false)) =
      [tiedFacade.bundleOf 1, tiedFacade.bundleOf 1] from by decide]
    exact List.mergeSort_of_sorted (by decide)
  rw [e]
  decide

/-- Claim C5, witness: under `overlapFacade`, the tail hash 1 and the
non-tail hash 2 of the same bundle resolve to a single bundle. -/
theorem resolver_overlap_single_bundle_witness :
    (resolvedBundles overlapFacade [1, 2] true).length = 1 :=
  resolver_overlap_single_bundle overlapFacade 1 2 true (by decide)
    (by decide) (by decide) (by decide) (by decide) (by decide)

theorem attachBundles_calls (env : ResolveEnv) (b : Bool)
    (tt : List Transaction) (calls : List RCall) :
    (attachBundles env b tt calls).2 =
      calls ++ [.getBundles (tt.map fun t => t.hash)] := by
  by_cases h : ∃ e, env.getBundles (tt.map fun t => t.hash) = .error e
  · obtain ⟨e, he⟩ := h
    simp [attachBundles, he]
  · cases he : env.getBundles (tt.map fun t => t.hash) with
    | error e => exact absurd ⟨e, he⟩ h
    | ok v => simp [attachBundles, he]

/-- Claim C6: with inclusion states requested, each returned bundle's
confirmation flag is exactly the flag the inclusion-state service
reported for that bundle's tail hash (absent when the service reported
none); without them, every returned bundle's confirmation flag is the
facade's fresh (absent) flag, and no `getLatestInclusion` query is ever
issued. -/
theorem resolver_inclusion_flag_semantics :
    (∀ (p : PureFacade) (hs : List THash),
      (∀ h, (p.bundleOf h).tail_transaction.hash = h) →
      ∀ bb ∈ resolvedBundles p hs true,
        bb.is_confirmed = p.inclusion bb.tail_transaction.hash) ∧
    (∀ (p : PureFacade) (hs : List THash),
      (∀ h, (p.bundleOf h).is_confirmed = none) →
      ∀ bb ∈ resolvedBundles p hs false, bb.is_confirmed = none) ∧
    (∀ (env : ResolveEnv) (hs : List THash),
      ∀ c ∈ (get_bundles_from_transaction_hashes env hs false).2,
        ∀ q, c ≠ RCall.getLatestInclusion q) := by
  refine ⟨?_, ?_, ?_⟩
  · intro p hs hcoh bb hbb
    by_cases hne : hs = []
    · subst hne
      rw [show resolvedBundles p [] true = [] from rfl] at hbb
      exact absurd hbb (List.not_mem_nil bb)
    · rw [resolvedBundles_eq p hs true hne, List.mem_mergeSort] at hbb
      obtain ⟨t, ht, rfl⟩ := List.mem_map.mp hbb
      simp [bundleizer, hcoh]
  · intro p hs hfresh bb hbb
    by_cases hne : hs = []
    · subst hne
      rw [show resolvedBundles p [] false = [] from rfl] at hbb
      exact absurd hbb (List.not_mem_nil bb)
    · rw [resolvedBundles_eq p hs false hne, List.mem_mergeSort] at hbb
      obtain ⟨t, ht, rfl⟩ := List.mem_map.mp hbb
      simp [bundleizer, hfresh]
  · intro env hs c hc q
    by_cases hne : hs = []
    · subst hne
      rw [show (get_bundles_from_transaction_hashes env [] false).2 = []
          from rfl] at hc
      exact absurd hc (List.not_mem_nil c)
    · have hemp : hs.isEmpty = false := by simpa [List.isEmpty_iff] using hne
      rw [get_bundles_from_transaction_hashes] at hc
      rw [if_neg (by simp [hemp])] at hc
      cases hgt : env.getTrytes hs with
      | error e =>
        simp only [hgt, List.mem_singleton] at hc
        subst hc
        simp
      | ok all =>
        simp only [hgt] at hc
        by_cases hn : (classifyTransactions all).2.Nonempty
        · rw [if_pos hn] at hc
          cases hfo : env.findTransactionObjects
              ((classifyTransactions all).2.sort (· ≤ ·)) with
          | error e =>
            simp only [hfo, List.mem_cons, List.not_mem_nil, or_false] at hc
            rcases hc with rfl | rfl <;> simp
          | ok resp =>
            simp only [hfo] at hc
            rw [show attachInclusionStates env false
                (discoverTails resp all (classifyTransactions all).1).1
                (discoverTails resp all (classifyTransactions all).1).2
                [.getTrytes hs, .findTransactionObjects
                  ((classifyTransactions all).2.sort (· ≤ ·))] =
              attachBundles env false
                ((discoverTails resp all (classifyTransactions all).1).1
                  |>.filter fun txn => decide (txn.hash ∈
                    (discoverTails resp all (classifyTransactions all).1).2))
                [.getTrytes hs, .findTransactionObjects
                  ((classifyTransactions all).2.sort (· ≤ ·))] from rfl,
              attachBundles_calls] at hc
            simp only [List.mem_append, List.mem_cons, List.mem_singleton,
              List.not_mem_nil, or_false] at hc
            rcases hc with (rfl | rfl) | rfl <;> simp
        · rw [if_neg hn] at hc
          rw [show attachInclusionStates env false all
              (classifyTransactions all).1 [.getTrytes hs] =
            attachBundles env false
              (all.filter fun txn =>
                decide (txn.hash ∈ (classifyTransactions all).1))
              [.getTrytes hs] from rfl,
            attachBundles_calls] at hc
          simp only [List.mem_append, List.mem_singleton,
            List.not_mem_nil, or_false] at hc
          rcases hc with rfl | rfl <;> simp

/-- Claim C6, witness: under `distinctTsFacade` every returned bundle's
flag equals the reported flag of its tail hash, and the
`inclusion_states=false` run issues no `getLatestInclusion` query. -/
theorem resolver_inclusion_flag_semantics_witness :
    (resolvedBundles distinctTsFacade [1, 2] true).map Bundle.is_confirmed =
      (resolvedBundles distinctTsFacade [1, 2] true).map
        (fun bb => distinctTsFacade.inclusion bb.tail_transaction.hash) ∧
    ((get_bundles_from_transaction_hashes distinctTsFacade.toEnv [1, 2]
        false).2.all fun c =>
      match c with
      | .getLatestInclusion _ => false
      | _ => true) = true := by
  constructor
  · exact List.map_congr_left fun bb hbb =>
      resolver_inclusion_flag_semantics.1 distinctTsFacade [1, 2]
        (fun h => rfl) bb hbb
  · decide

end IotaUtils
